import Mathlib

open scoped List

/-!
Verification of the VectorSearchExploration repository.

The repository consists of exploratory notebooks around vector similarity
search: scalar TF-IDF and BM25 scoring over tokenized documents, and a
brute-force ranking routine (score every chunk against a query, sort
descending by similarity with Python's stable sort, take the first k).
The FAISS index structures (flat index, VectorStore dimension checks, IVF)
are library calls in the notebooks; where a claim is decided by that
missing implementation it is modelled from the spec, and the definition
says so in its doc comment.

Conventions of the embedding:
- Python floats are idealized as rationals; transcendental library
  functions (numpy log, numpy sqrt) are opaque parameters, with their
  relevant analytic properties taken as hypotheses where a claim needs
  them.
- Python strings are sequences of code points, embedded as lists of
  characters; the builtin lowercasing maps over the characters.
- Python's list.sort(key=..., reverse=True) is a stable sort; it is
  embedded as a stable insertion sort over the corresponding relation,
  which produces the same list as any stable sort for the same total
  preorder.
-/

/-! ## The ranking pipeline of check_document_relevance

In faiss.ipynb, sbert.ipynb and the BM25 notebook, check_document_relevance
builds a candidate list in insertion order (one Relevance per stored
chunk), scores each candidate against the query, sorts descending by
similarity with Python's stable sort, and takes the first k entries.
The score type is kept abstract as a linear order; the notebooks
instantiate it with float cosine similarity. -/

/-- Relevance record built by check_document_relevance: the candidate's
insertion id together with its similarity score against the query. -/
structure Relevance (σ : Type) where
  id : Nat
  similarity : σ
  deriving DecidableEq, Repr

/-- Descending-similarity comparison used by the sort
(key=lambda x: x.similarity, reverse=True). -/
def simDesc {σ : Type} [LinearOrder σ] (a b : Relevance σ) : Prop :=
  b.similarity ≤ a.similarity

instance {σ : Type} [LinearOrder σ] : DecidableRel (simDesc (σ := σ)) :=
  fun a b => inferInstanceAs (Decidable (b.similarity ≤ a.similarity))

instance {σ : Type} [LinearOrder σ] : IsTotal (Relevance σ) simDesc := by
  constructor
  intro a b
  rcases le_total b.similarity a.similarity with h | h
  · exact Or.inl h
  · exact Or.inr h

instance {σ : Type} [LinearOrder σ] : IsTrans (Relevance σ) simDesc := by
  constructor
  intro a b c h1 h2
  exact le_trans h2 h1

/-- Candidate list built in insertion order starting from id i: one
Relevance per chunk, scored against the query by the similarity
function. -/
def scoreChunksFrom {χ σ : Type} (sim : χ → σ) : Nat → List χ → List (Relevance σ)
  | _, [] => []
  | i, c :: cs => ⟨i, sim c⟩ :: scoreChunksFrom sim (i + 1) cs

/-- Candidate list of check_document_relevance: chunks scored in insertion
order, ids starting at 0. -/
def scoreChunks {χ σ : Type} (sim : χ → σ) (chunks : List χ) : List (Relevance σ) :=
  scoreChunksFrom sim 0 chunks

/-- Stable descending sort by similarity
(top_answers.sort(key=lambda x: x.similarity, reverse=True)). -/
def rankBySimilarity {σ : Type} [LinearOrder σ] (rs : List (Relevance σ)) : List (Relevance σ) :=
  rs.insertionSort simDesc

/-- Embedding of check_document_relevance: score every chunk, sort
descending by similarity, take the first k answers. -/
def check_document_relevance {χ σ : Type} [LinearOrder σ]
    (sim : χ → σ) (chunks : List χ) (k : Nat) : List (Relevance σ) :=
  (rankBySimilarity (scoreChunks sim chunks)).take k

theorem scoreChunksFrom_id_ge {χ σ : Type} (sim : χ → σ) :
    ∀ (i : Nat) (cs : List χ) (a : Relevance σ), a ∈ scoreChunksFrom sim i cs → i ≤ a.id := by
  intro i cs
  induction cs generalizing i with
  | nil =>
    intro a ha
    simp [scoreChunksFrom] at ha
  | cons c cs ih =>
    intro a ha
    rw [scoreChunksFrom] at ha
    rcases List.mem_cons.mp ha with ha | ha
    · subst ha; simp
    · exact Nat.le_of_succ_le (ih (i + 1) a ha)

theorem pair_sublist_scoreChunksFrom {χ σ : Type} (sim : χ → σ) :
    ∀ (i : Nat) (cs : List χ) (a b : Relevance σ),
      a ∈ scoreChunksFrom sim i cs → b ∈ scoreChunksFrom sim i cs → a.id < b.id →
      [a, b] <+ scoreChunksFrom sim i cs := by
  intro i cs
  induction cs generalizing i with
  | nil =>
    intro a b ha
    simp [scoreChunksFrom] at ha
  | cons c cs ih =>
    intro a b ha hb hab
    rw [scoreChunksFrom] at ha hb ⊢
    rcases List.mem_cons.mp ha with ha | ha
    · rcases List.mem_cons.mp hb with hb | hb
      · rw [ha, hb] at hab; exact absurd hab (lt_irrefl _)
      · subst ha
        exact (List.singleton_sublist.mpr hb).cons₂ _
    · rcases List.mem_cons.mp hb with hb | hb
      · have hia := scoreChunksFrom_id_ge sim (i + 1) cs a ha
        rw [hb] at hab
        simp only [Relevance.mk.injEq] at hab
        change a.id < i at hab
        omega
      · exact (ih (i + 1) a b ha hb hab).cons _

/-- C1: the brute-force search scores the query against every chunk, sorts
descending by similarity and takes the first k; the returned entries
together with the dropped ones are a permutation of all scored candidates,
and every returned entry's score is at least the score of every entry not
returned. -/
theorem check_document_relevance_is_topk {χ σ : Type} [LinearOrder σ]
    (sim : χ → σ) (chunks : List χ) (k : Nat) :
    ((check_document_relevance sim chunks k ++
        (rankBySimilarity (scoreChunks sim chunks)).drop k) ~ scoreChunks sim chunks)
    ∧ ∀ x ∈ check_document_relevance sim chunks k,
        ∀ y ∈ (rankBySimilarity (scoreChunks sim chunks)).drop k,
          y.similarity ≤ x.similarity := by
  constructor
  · rw [check_document_relevance, List.take_append_drop]
    exact List.perm_insertionSort simDesc (scoreChunks sim chunks)
  · intro x hx y hy
    have hs : (rankBySimilarity (scoreChunks sim chunks)).Sorted simDesc :=
      List.sorted_insertionSort simDesc (scoreChunks sim chunks)
    exact hs.rel_of_mem_take_of_mem_drop hx hy

/-- Witness for C1 at a concrete input: three chunks with natural-number
scores 1, 5, 3 and k = 2; the entry with score 3 is returned and dominates
the dropped entry with score 1. -/
theorem check_document_relevance_is_topk_witness :
    ((⟨2, 3⟩ : Relevance ℕ) ∈ check_document_relevance id [1, 5, 3] 2
      ∧ (⟨0, 1⟩ : Relevance ℕ) ∈ (rankBySimilarity (scoreChunks id [1, 5, 3])).drop 2)
    ∧ (⟨0, 1⟩ : Relevance ℕ).similarity ≤ (⟨2, 3⟩ : Relevance ℕ).similarity := by
  refine ⟨⟨by decide, by decide⟩, ?_⟩
  exact (check_document_relevance_is_topk id [1, 5, 3] 2).2 ⟨2, 3⟩ (by decide) ⟨0, 1⟩ (by decide)

/-- C2: the descending stable sort over the candidate list built in
insertion order breaks ties by insertion order: whenever two scored
entries have exactly equal similarity and the first was inserted earlier
(smaller id), the pair appears in that order in the sorted list. -/
theorem rankBySimilarity_tiebreak_insertion_order {χ σ : Type} [LinearOrder σ]
    (sim : χ → σ) (chunks : List χ) (a b : Relevance σ)
    (ha : a ∈ scoreChunks sim chunks) (hb : b ∈ scoreChunks sim chunks)
    (hid : a.id < b.id) (hsim : a.similarity = b.similarity) :
    [a, b] <+ rankBySimilarity (scoreChunks sim chunks) := by
  have hpair : [a, b] <+ scoreChunks sim chunks :=
    pair_sublist_scoreChunksFrom sim 0 chunks a b ha hb hid
  have hr : simDesc a b := le_of_eq hsim.symm
  exact List.pair_sublist_insertionSort hr hpair

/-- Witness for C2 at a concrete input: two chunks with equal score 7; the
earlier-inserted entry precedes the later one in the sorted output. -/
theorem rankBySimilarity_tiebreak_insertion_order_witness :
    ((⟨0, 7⟩ : Relevance ℕ) ∈ scoreChunks id [7, 7]
      ∧ (⟨1, 7⟩ : Relevance ℕ) ∈ scoreChunks id [7, 7]
      ∧ (⟨0, 7⟩ : Relevance ℕ).id < (⟨1, 7⟩ : Relevance ℕ).id
      ∧ (⟨0, 7⟩ : Relevance ℕ).similarity = (⟨1, 7⟩ : Relevance ℕ).similarity)
    ∧ [(⟨0, 7⟩ : Relevance ℕ), ⟨1, 7⟩] <+ rankBySimilarity (scoreChunks id [7, 7]) := by
  refine ⟨⟨by decide, by decide, by decide, by decide⟩, ?_⟩
  exact rankBySimilarity_tiebreak_insertion_order id [7, 7] ⟨0, 7⟩ ⟨1, 7⟩
    (by decide) (by decide) (by decide) (by decide)

/-- C4: searching with zero stored chunks returns the empty result for
every query scoring function and every k, rather than failing. -/
theorem check_document_relevance_empty {χ σ : Type} [LinearOrder σ]
    (sim : χ → σ) (k : Nat) :
    check_document_relevance sim ([] : List χ) k = [] := by
  simp [check_document_relevance, rankBySimilarity, scoreChunks, scoreChunksFrom]

/-! ## Scalar TF-IDF and BM25 scoring

Embeddings of the tf, idf, tfidf functions of the TF-IDF notebook and the
bm25 function of the BM25 notebook. Python strings are embedded as lists
of characters (sequences of code points) and str.lower maps
Char.toLower over them. Python floats are idealized as rationals; the
transcendental numpy functions log10 and log are opaque parameters.
Division by zero, a Python ZeroDivisionError, is guarded: tf and tfidf
return an optional value that is none exactly on the error branch. -/

/-- Python string: a sequence of code points. -/
abbrev PyStr := List Char

/-- Embedding of Python str.lower: lowercase every character. -/
def pyLower (s : PyStr) : PyStr := s.map Char.toLower

theorem char_ofNat_toNat_shift (n : Nat) (h1 : 65 ≤ n) (h2 : n ≤ 90) :
    (Char.ofNat (n + 32)).toNat = n + 32 := by
  interval_cases n <;> decide

theorem char_toLower_toLower (c : Char) : c.toLower.toLower = c.toLower := by
  by_cases h : c.toNat ≥ 65 ∧ c.toNat ≤ 90
  · have h1 : c.toLower = Char.ofNat (c.toNat + 32) := by
      simp only [Char.toLower, if_pos h]
    have hv : (Char.ofNat (c.toNat + 32)).toNat = c.toNat + 32 :=
      char_ofNat_toNat_shift c.toNat h.1 h.2
    rw [h1]
    simp only [Char.toLower, hv]
    rw [if_neg (by omega)]
  · have h1 : c.toLower = c := by
      simp only [Char.toLower, if_neg h]
    rw [h1, h1]

theorem pyLower_idem (s : PyStr) : pyLower (pyLower s) = pyLower s := by
  unfold pyLower
  rw [List.map_map]
  apply List.map_congr_left
  intro c _
  exact char_toLower_toLower c

/-- Embedding of tf: frequency of the term in the document divided by the
document length. The Python code divides with no guard; the division-by-
zero error branch is the none case. -/
def tf (term : PyStr) (doc : List PyStr) : Option ℚ :=
  if doc.length = 0 then none
  else some ((doc.count term : ℚ) / (doc.length : ℚ))

/-- Number of corpus documents containing the term
(sum([1 for doc in corpus if term in doc])). -/
def docs_with_term (term : PyStr) (corpus : List (List PyStr)) : Nat :=
  (corpus.filter (fun d => decide (term ∈ d))).length

/-- Embedding of idf: 0 when no document contains the term, otherwise the
base-10 logarithm (an opaque parameter) of corpus size over document
frequency. -/
def idf (log10 : ℚ → ℚ) (term : PyStr) (corpus : List (List PyStr)) : ℚ :=
  if docs_with_term term corpus = 0 then 0
  else log10 ((corpus.length : ℚ) / (docs_with_term term corpus : ℚ))

/-- Embedding of tfidf: lowercase the term, return 0 when tf is 0, else
the product of tf and idf. The none case is the propagated
division-by-zero of tf on an empty document. -/
def tfidf (log10 : ℚ → ℚ) (term : PyStr) (doc : List PyStr)
    (corpus : List (List PyStr)) : Option ℚ :=
  let t := pyLower term
  match tf t doc with
  | none => none
  | some x => if x = 0 then some 0 else some (x * idf log10 t corpus)

/-- Embedding of bm25 with every parameter explicit; the Python defaults
are corpus_length = -1 and average_doc_length = -1 (the sentinels), k =
1.25 and b = 0.75. The natural logarithm is an opaque parameter. -/
def bm25 (logE : ℚ → ℚ) (term : PyStr) (doc : List PyStr) (corpus : List (List PyStr))
    (corpus_length average_doc_length k b : ℚ) : ℚ :=
  let term := pyLower term
  let corpus_length := if corpus_length = -1 then (corpus.length : ℚ) else corpus_length
  let average_doc_length :=
    if average_doc_length = -1 then (corpus.map fun d => (d.length : ℚ)).sum / corpus_length
    else average_doc_length
  let frequency := doc.count term
  if frequency = 0 then 0
  else
    let tfv := ((frequency : ℚ) * (k + 1)) /
      ((frequency : ℚ) + k * (1 - b + b * (doc.length : ℚ) / average_doc_length))
    let idfv := logE ((corpus_length - (docs_with_term term corpus : ℚ) + 1 / 2) /
      ((docs_with_term term corpus : ℚ) + 1 / 2) + 1)
    tfv * idfv

theorem docs_with_term_eq_zero_iff (term : PyStr) (corpus : List (List PyStr)) :
    docs_with_term term corpus = 0 ↔ ∀ d ∈ corpus, term ∉ d := by
  unfold docs_with_term
  rw [List.length_eq_zero, List.filter_eq_nil_iff]
  simp

theorem docs_with_term_eq_length_iff (term : PyStr) (corpus : List (List PyStr)) :
    docs_with_term term corpus = corpus.length ↔ ∀ d ∈ corpus, term ∈ d := by
  unfold docs_with_term
  rw [List.filter_length_eq_length]
  simp

theorem docs_with_term_le_length (term : PyStr) (corpus : List (List PyStr)) :
    docs_with_term term corpus ≤ corpus.length :=
  List.length_filter_le _ _

/-- C8: the term-frequency computation divides by the document length with
no other guard, so the error branch fires exactly on the empty document
(and tfidf propagates it); under the precondition that the document is
non-empty, tf returns a value between 0 and 1. -/
theorem tf_guarded_division (log10 : ℚ → ℚ) (term : PyStr) (doc : List PyStr)
    (corpus : List (List PyStr)) :
    (tf term doc = none ↔ doc.length = 0)
    ∧ (tfidf log10 term doc corpus = none ↔ doc.length = 0)
    ∧ (0 < doc.length → ∃ q, tf term doc = some q ∧ 0 ≤ q ∧ q ≤ 1) := by
  refine ⟨?_, ?_, ?_⟩
  · unfold tf
    by_cases h : doc.length = 0
    · simp [h]
    · simp [h]
  · unfold tfidf tf
    by_cases h : doc.length = 0
    · simp [h]
    · simp only [if_neg h]
      constructor
      · intro hcontra
        by_cases h0 : ((doc.count (pyLower term) : ℚ) / (doc.length : ℚ)) = 0 <;>
          simp [h0] at hcontra
      · intro hcontra
        exact absurd hcontra h
  · intro hpos
    refine ⟨(doc.count term : ℚ) / (doc.length : ℚ), ?_, ?_, ?_⟩
    · unfold tf
      rw [if_neg (Nat.pos_iff_ne_zero.mp hpos)]
    · apply div_nonneg <;> positivity
    · rw [div_le_one (by exact_mod_cast hpos)]
      exact_mod_cast List.count_le_length term doc

/-- Witness for C8 at a concrete input: a two-token document, where tf of
a term occurring once is defined and lies in the unit interval. -/
theorem tf_guarded_division_witness :
    0 < ([['a'], ['b']] : List PyStr).length
    ∧ ∃ q, tf ['a'] [['a'], ['b']] = some q ∧ 0 ≤ q ∧ q ≤ 1 :=
  ⟨by decide, (tf_guarded_division id ['a'] [['a'], ['b']] []).2.2 (by decide)⟩

/-- C9: for a non-empty corpus, idf is non-negative and vanishes exactly
when the term occurs in no document or in every document, assuming the
defining analytic properties of the base-10 logarithm on arguments at
least 1. -/
theorem idf_nonneg_and_zero_iff (log10 : ℚ → ℚ)
    (hmono : ∀ x : ℚ, 1 ≤ x → 0 ≤ log10 x)
    (hone : log10 1 = 0)
    (hne : ∀ x : ℚ, 1 < x → log10 x ≠ 0)
    (term : PyStr) (corpus : List (List PyStr)) (hc : corpus ≠ []) :
    0 ≤ idf log10 term corpus
    ∧ (idf log10 term corpus = 0 ↔
        (∀ d ∈ corpus, term ∉ d) ∨ ∀ d ∈ corpus, term ∈ d) := by
  by_cases h0 : docs_with_term term corpus = 0
  · unfold idf
    rw [if_pos h0]
    exact ⟨le_refl 0, by simp [Or.inl ((docs_with_term_eq_zero_iff term corpus).mp h0)]⟩
  · have hdnat : 0 < docs_with_term term corpus := Nat.pos_of_ne_zero h0
    have hdpos : (0 : ℚ) < (docs_with_term term corpus : ℚ) := by exact_mod_cast hdnat
    have hled : docs_with_term term corpus ≤ corpus.length :=
      docs_with_term_le_length term corpus
    have harg : 1 ≤ (corpus.length : ℚ) / (docs_with_term term corpus : ℚ) :=
      (one_le_div hdpos).mpr (by exact_mod_cast hled)
    unfold idf
    rw [if_neg h0]
    refine ⟨hmono _ harg, ?_⟩
    by_cases heq : docs_with_term term corpus = corpus.length
    · have h1 : (corpus.length : ℚ) / (docs_with_term term corpus : ℚ) = 1 := by
        rw [heq]
        exact div_self (ne_of_gt (by exact_mod_cast heq ▸ hdpos))
      rw [h1, hone]
      constructor
      · intro _
        exact Or.inr ((docs_with_term_eq_length_iff term corpus).mp heq)
      · intro _
        rfl
    · have hlt : docs_with_term term corpus < corpus.length := lt_of_le_of_ne hled heq
      have harg2 : 1 < (corpus.length : ℚ) / (docs_with_term term corpus : ℚ) :=
        (one_lt_div hdpos).mpr (by exact_mod_cast hlt)
      constructor
      · intro h
        exact absurd h (hne _ harg2)
      · intro h
        rcases h with h | h
        · exact absurd ((docs_with_term_eq_zero_iff term corpus).mpr h) h0
        · exact absurd ((docs_with_term_eq_length_iff term corpus).mpr h) heq

/-- Witness for C9 at a concrete input: a one-document corpus containing
the term, with the logarithm instantiated by a function satisfying the
assumed analytic properties. -/
theorem idf_nonneg_and_zero_iff_witness :
    (∀ x : ℚ, 1 ≤ x → 0 ≤ x - 1) ∧ ((1 : ℚ) - 1 = 0) ∧ (∀ x : ℚ, 1 < x → x - 1 ≠ 0)
    ∧ ([[['a']]] : List (List PyStr)) ≠ []
    ∧ (0 ≤ idf (fun x => x - 1) ['a'] [[['a']]]
        ∧ (idf (fun x => x - 1) ['a'] [[['a']]] = 0 ↔
            (∀ d ∈ ([[['a']]] : List (List PyStr)), ['a'] ∉ d)
            ∨ ∀ d ∈ ([[['a']]] : List (List PyStr)), ['a'] ∈ d)) :=
  ⟨fun _ hx => sub_nonneg.mpr hx, sub_self 1, fun _ hx => sub_ne_zero.mpr (ne_of_gt hx),
    by decide,
    idf_nonneg_and_zero_iff (fun x => x - 1) (fun _ hx => sub_nonneg.mpr hx) (sub_self 1)
      (fun _ hx => sub_ne_zero.mpr (ne_of_gt hx)) ['a'] [[['a']]] (by decide)⟩

/-- C7: calling bm25 with the default sentinel arguments recomputes the
corpus statistics and agrees with calling it with the cached corpus length
and average document length, for a non-empty corpus of non-empty
documents. -/
theorem bm25_sentinel_eq_cached (logE : ℚ → ℚ) (term : PyStr) (doc : List PyStr)
    (corpus : List (List PyStr)) (k b : ℚ)
    (hc : corpus ≠ []) (hd : ∀ d ∈ corpus, d ≠ []) :
    bm25 logE term doc corpus (-1) (-1) k b
    = bm25 logE term doc corpus (corpus.length : ℚ)
        ((corpus.map fun d => (d.length : ℚ)).sum / (corpus.length : ℚ)) k b := by
  have hlen : (0 : ℚ) < (corpus.length : ℚ) := by
    have : 0 < corpus.length := List.length_pos.mpr hc
    exact_mod_cast this
  have h1 : ¬((corpus.length : ℚ) = -1) := by
    intro h
    rw [h] at hlen
    norm_num at hlen
  have hsum : 0 ≤ (corpus.map fun d => (d.length : ℚ)).sum := by
    apply List.sum_nonneg
    intro x hx
    rw [List.mem_map] at hx
    obtain ⟨d, _, rfl⟩ := hx
    positivity
  have h2 : ¬((corpus.map fun d => (d.length : ℚ)).sum / (corpus.length : ℚ) = -1) := by
    intro h
    have hnn := div_nonneg hsum (le_of_lt hlen)
    rw [h] at hnn
    norm_num at hnn
  simp only [bm25, eq_self_iff_true, if_true, h1, h2, if_false]

/-- Witness for C7 at a concrete input: a one-document corpus with one
non-empty document. -/
theorem bm25_sentinel_eq_cached_witness :
    ([[['a']]] : List (List PyStr)) ≠ []
    ∧ (∀ d ∈ ([[['a']]] : List (List PyStr)), d ≠ [])
    ∧ bm25 id ['a'] [['a']] [[['a']]] (-1) (-1) (5 / 4) (3 / 4)
      = bm25 id ['a'] [['a']] [[['a']]] (([[['a']]] : List (List PyStr)).length : ℚ)
          ((([[['a']]] : List (List PyStr)).map fun d => (d.length : ℚ)).sum /
            (([[['a']]] : List (List PyStr)).length : ℚ)) (5 / 4) (3 / 4) :=
  ⟨by decide, by decide,
    bm25_sentinel_eq_cached id ['a'] [['a']] [[['a']]] (5 / 4) (3 / 4) (by decide) (by decide)⟩

/-- C10: tfidf and bm25 lowercase their term argument before any use, so
both are insensitive to lowercasing the term: they agree on a term and on
its lowercased form, for every document, corpus and parameter values. -/
theorem tfidf_bm25_lower_insensitive (log10 logE : ℚ → ℚ) (term : PyStr) (doc : List PyStr)
    (corpus : List (List PyStr)) (cl adl k b : ℚ) :
    tfidf log10 term doc corpus = tfidf log10 (pyLower term) doc corpus
    ∧ bm25 logE term doc corpus cl adl k b = bm25 logE (pyLower term) doc corpus cl adl k b := by
  constructor
  · simp only [tfidf, pyLower_idem]
  · simp only [bm25, pyLower_idem]

/-! ## Distance metrics and the exact flat index

The notebooks define cosine_similarity directly (dot product over the
product of the norms); the flat index itself is the faiss library's
IndexFlatL2 / IndexFlatIP, whose implementation is not part of this
repository, so the flat search is modelled from the spec: it computes the
configured metric (squared L2 or inner product) against every stored
vector and returns the k best entries, ranked ascending by L2 distance or
descending by inner product, ties broken by ascending id. The numpy
square root inside the norm is an opaque parameter. -/

/-- Dot product of two vectors (np.dot). -/
def dot (v w : List ℚ) : ℚ := (List.zipWith (fun a b => a * b) v w).sum

/-- Squared L2 distance between two vectors. -/
def sqL2 (v w : List ℚ) : ℚ := (List.zipWith (fun a b => (a - b) ^ 2) v w).sum

/-- Embedding of cosine_similarity from the notebooks: the dot product
divided by the product of the two norms, where a norm is the (opaque)
square root of the self dot product. -/
def cosine_similarity (sqrt : ℚ → ℚ) (v w : List ℚ) : ℚ :=
  dot v w / (sqrt (dot v v) * sqrt (dot w w))

/-- Distance metric fixed at index construction: squared L2 or inner
product. -/
inductive Metric
  | l2
  | innerProduct
  deriving DecidableEq

/-- Score reported for a query/vector pair under the configured metric. -/
def metricScore : Metric → List ℚ → List ℚ → ℚ
  | Metric.l2, q, v => sqL2 q v
  | Metric.innerProduct, q, v => dot q v

/-- Result order of the flat index for the configured metric: ascending
score for L2, descending score for inner product, ties broken by
ascending id. -/
def flatOrder (m : Metric) (a b : Nat × ℚ) : Prop :=
  match m with
  | Metric.l2 => a.2 < b.2 ∨ (a.2 = b.2 ∧ a.1 ≤ b.1)
  | Metric.innerProduct => b.2 < a.2 ∨ (a.2 = b.2 ∧ a.1 ≤ b.1)

instance (m : Metric) : DecidableRel (flatOrder m) := by
  intro a b
  cases m
  · exact inferInstanceAs (Decidable (_ ∨ _))
  · exact inferInstanceAs (Decidable (_ ∨ _))

/-- Modelled from the spec: FlatIndex.search scores the query against
every stored vector with the configured metric and orders the (id, score)
pairs; the faiss IndexFlatL2 / IndexFlatIP implementation is library code
absent from the repository sources. -/
def flatRank (m : Metric) (store : List (List ℚ)) (query : List ℚ) : List (Nat × ℚ) :=
  ((List.range store.length).map fun i => (i, metricScore m query (store.getD i [])))
    |>.insertionSort (flatOrder m)

/-- Modelled from the spec: FlatIndex.search returns the first k ranked
entries. -/
def flatSearch (m : Metric) (store : List (List ℚ)) (query : List ℚ) (k : Nat) :
    List (Nat × ℚ) :=
  (flatRank m store query).take k

/-- C3: every score attached to a flat-search result is the configured
metric applied to the query and the stored vector with that id, and the
metric is not the normalized dot product: on a concrete pair, both the L2
score and the inner-product score differ from cosine similarity. -/
theorem flatSearch_reports_configured_metric :
    (∀ (m : Metric) (store : List (List ℚ)) (query : List ℚ) (k : Nat),
      (flatSearch m store query k).Forall
        (fun p => p.1 < store.length ∧ p.2 = metricScore m query (store.getD p.1 [])))
    ∧ ∀ sqrt : ℚ → ℚ, sqrt 25 = 5 →
        metricScore Metric.l2 [3, 4] [3, 4] ≠ cosine_similarity sqrt [3, 4] [3, 4]
        ∧ metricScore Metric.innerProduct [3, 4] [3, 4] ≠ cosine_similarity sqrt [3, 4] [3, 4] := by
  constructor
  · intro m store query k
    rw [List.forall_iff_forall_mem]
    intro p hp
    have hp1 : p ∈ flatRank m store query := List.take_subset _ _ hp
    have hp2 : p ∈ (List.range store.length).map
        fun i => (i, metricScore m query (store.getD i [])) :=
      (List.mem_insertionSort _).mp hp1
    rw [List.mem_map] at hp2
    obtain ⟨i, hi, rfl⟩ := hp2
    exact ⟨List.mem_range.mp hi, rfl⟩
  · intro sqrt hsqrt
    have hdot : dot [3, 4] [3, 4] = 25 := by
      simp [dot]
      norm_num
    have hcos : cosine_similarity sqrt [3, 4] [3, 4] = 1 := by
      rw [cosine_similarity, hdot, hsqrt]
      norm_num
    constructor
    · rw [hcos]
      simp [metricScore, sqL2]
    · rw [hcos, metricScore, hdot]
      norm_num

/-- Witness for C3 at a concrete input: the square-root parameter
instantiated by a function with the assumed value at 25. -/
theorem flatSearch_reports_configured_metric_witness :
    (fun _ : ℚ => (5 : ℚ)) 25 = 5
    ∧ (metricScore Metric.l2 [3, 4] [3, 4]
        ≠ cosine_similarity (fun _ : ℚ => (5 : ℚ)) [3, 4] [3, 4]
      ∧ metricScore Metric.innerProduct [3, 4] [3, 4]
        ≠ cosine_similarity (fun _ : ℚ => (5 : ℚ)) [3, 4] [3, 4]) :=
  ⟨rfl, flatSearch_reports_configured_metric.2 (fun _ => (5 : ℚ)) rfl⟩

/-! ## The VectorStore dimension invariant

The vector store of the spec is realized in the notebooks by the faiss
index construction and add calls, which are library code absent from the
repository sources, so the store is modelled from the spec. -/

/-- Error kinds of the VectorStore. -/
inductive VSError
  | DimensionMismatch
  | OutOfRange
  deriving DecidableEq

/-- Modelled from the spec: the VectorStore owns the stored vectors; the
faiss-side storage is library code absent from the repository sources. -/
structure VectorStore where
  vectors : List (List ℚ)
  deriving DecidableEq

/-- Modelled from the spec: the store's dimension, fixed by the first
insertion; none while the store is empty. -/
def VectorStore.dimension (s : VectorStore) : Option Nat :=
  s.vectors.head?.map List.length

/-- Modelled from the spec: size() returns the number of stored
vectors. -/
def VectorStore.size (s : VectorStore) : Nat := s.vectors.length

/-- Modelled from the spec: get(id) retrieves a vector by id and fails
with OutOfRange on an unassigned id. -/
def VectorStore.get (s : VectorStore) (i : Nat) : Except VSError (List ℚ) :=
  match s.vectors.get? i with
  | none => Except.error VSError.OutOfRange
  | some v => Except.ok v

/-- Modelled from the spec: append(vector) fails with DimensionMismatch
when the vector's length differs from the fixed dimension, leaving the
store unchanged; the very first append fixes the dimension. Returns the
resulting store together with the assigned id or the error. -/
def VectorStore.append (s : VectorStore) (v : List ℚ) : VectorStore × Except VSError Nat :=
  match s.dimension with
  | none => (⟨s.vectors ++ [v]⟩, Except.ok s.vectors.length)
  | some d =>
    if v.length = d then (⟨s.vectors ++ [v]⟩, Except.ok s.vectors.length)
    else (s, Except.error VSError.DimensionMismatch)

/-- C5: appending a vector whose length differs from the store's fixed
dimension fails with DimensionMismatch and returns the store unchanged. -/
theorem vectorStore_append_mismatch (s : VectorStore) (d : Nat) (v : List ℚ)
    (hd : s.dimension = some d) (hv : v.length ≠ d) :
    s.append v = (s, Except.error VSError.DimensionMismatch) := by
  unfold VectorStore.append
  rw [hd]
  simp only [if_neg hv]

set_option maxRecDepth 8000 in
/-- Witness for C5 at concrete inputs: stores of dimension 1, 128 and 768,
each hit with an append of the wrong length. -/
theorem vectorStore_append_mismatch_witness :
    ((VectorStore.mk [List.replicate 1 0]).dimension = some 1
      ∧ (List.replicate 2 (0 : ℚ)).length ≠ 1
      ∧ (VectorStore.mk [List.replicate 1 0]).append (List.replicate 2 0)
        = (VectorStore.mk [List.replicate 1 0], Except.error VSError.DimensionMismatch))
    ∧ ((VectorStore.mk [List.replicate 128 0]).dimension = some 128
      ∧ (List.replicate 129 (0 : ℚ)).length ≠ 128
      ∧ (VectorStore.mk [List.replicate 128 0]).append (List.replicate 129 0)
        = (VectorStore.mk [List.replicate 128 0], Except.error VSError.DimensionMismatch))
    ∧ ((VectorStore.mk [List.replicate 768 0]).dimension = some 768
      ∧ (List.replicate 767 (0 : ℚ)).length ≠ 768
      ∧ (VectorStore.mk [List.replicate 768 0]).append (List.replicate 767 0)
        = (VectorStore.mk [List.replicate 768 0], Except.error VSError.DimensionMismatch)) := by
  refine ⟨⟨?_, ?_, ?_⟩, ⟨?_, ?_, ?_⟩, ⟨?_, ?_, ?_⟩⟩
  · simp [VectorStore.dimension]
  · simp
  · exact vectorStore_append_mismatch _ 1 _ (by simp [VectorStore.dimension]) (by simp)
  · simp [VectorStore.dimension]
  · simp
  · exact vectorStore_append_mismatch _ 128 _ (by simp [VectorStore.dimension]) (by simp)
  · simp [VectorStore.dimension]
  · simp
  · exact vectorStore_append_mismatch _ 768 _ (by simp [VectorStore.dimension]) (by simp)

/-! ## IVF search and recall monotonicity in nprobe

The IVF index of the notebooks is the faiss library's IndexIVFFlat, whose
implementation is absent from the repository sources, so it is modelled
from the spec: vectors are assigned to their nearest centroid; a search
ranks the centroids by distance to the query, probes the nprobe nearest,
scans exactly the vectors assigned to probed centroids, and returns the
top k by true distance; ranking follows the QueryResult contract
(ascending L2 distance, ties broken by ascending id, matching the metric
of the notebook's IndexFlatL2 quantizer). Recall at k is the fraction of
the flat-search (ground-truth) top k found in the approximate top k. -/

/-- Ranking order on ids induced by a score key: ascending score, ties
broken by ascending id (the QueryResult contract). -/
def keyOrder (key : Nat → ℚ) (i j : Nat) : Prop :=
  key i < key j ∨ (key i = key j ∧ i ≤ j)

/-- Strict version of the ranking order on ids. -/
def keyLT (key : Nat → ℚ) (i j : Nat) : Prop :=
  key i < key j ∨ (key i = key j ∧ i < j)

instance (key : Nat → ℚ) : DecidableRel (keyOrder key) := by
  intro i j
  exact inferInstanceAs (Decidable (_ ∨ _))

instance (key : Nat → ℚ) : DecidableRel (keyLT key) := by
  intro i j
  exact inferInstanceAs (Decidable (_ ∨ _))

instance (key : Nat → ℚ) : IsTotal Nat (keyOrder key) := by
  constructor
  intro i j
  rcases lt_trichotomy (key i) (key j) with h | h | h
  · exact Or.inl (Or.inl h)
  · rcases Nat.le_total i j with h2 | h2
    · exact Or.inl (Or.inr ⟨h, h2⟩)
    · exact Or.inr (Or.inr ⟨h.symm, h2⟩)
  · exact Or.inr (Or.inl h)

instance (key : Nat → ℚ) : IsTrans Nat (keyOrder key) := by
  constructor
  rintro i j l (h1 | ⟨he1, hl1⟩) (h2 | ⟨he2, hl2⟩)
  · exact Or.inl (lt_trans h1 h2)
  · exact Or.inl (he2 ▸ h1)
  · exact Or.inl (he1 ▸ h2)
  · exact Or.inr ⟨he1.trans he2, le_trans hl1 hl2⟩

theorem keyLT_irrefl (key : Nat → ℚ) (i : Nat) : ¬ keyLT key i i := by
  rintro (h | ⟨_, h⟩)
  · exact lt_irrefl _ h
  · exact lt_irrefl _ h

theorem keyLT_asymm (key : Nat → ℚ) {i j : Nat} (h : keyLT key i j) : ¬ keyLT key j i := by
  rcases h with h | ⟨he, hl⟩ <;> rintro (h2 | ⟨he2, hl2⟩)
  · exact lt_asymm h h2
  · exact absurd he2.symm (ne_of_lt h)
  · exact absurd he.symm (ne_of_lt h2)
  · exact lt_asymm hl hl2

theorem keyLT_of_keyOrder_ne (key : Nat → ℚ) {i j : Nat}
    (h : keyOrder key i j) (hne : i ≠ j) : keyLT key i j := by
  rcases h with h | ⟨he, hl⟩
  · exact Or.inl h
  · exact Or.inr ⟨he, lt_of_le_of_ne hl hne⟩

/-- Number of candidates ranked strictly before x under the key. -/
def ltCount (key : Nat → ℚ) (x : Nat) (l : List Nat) : Nat :=
  (l.filter fun j => decide (keyLT key j x)).length

theorem ltCount_cons (key : Nat → ℚ) (x a : Nat) (t : List Nat) :
    ltCount key x (a :: t)
      = (if keyLT key a x then 1 else 0) + ltCount key x t := by
  unfold ltCount
  rw [List.filter_cons]
  by_cases h : keyLT key a x
  · rw [if_pos (decide_eq_true h), if_pos h, List.length_cons]
    omega
  · rw [if_neg (by simpa using h), if_neg h]
    omega

theorem ltCount_of_perm (key : Nat → ℚ) (x : Nat) {l l' : List Nat} (h : l ~ l') :
    ltCount key x l = ltCount key x l' :=
  (h.filter _).length_eq

theorem ltCount_le_of_subset (key : Nat → ℚ) (x : Nat) {l l' : List Nat}
    (hnd : l.Nodup) (hsub : l ⊆ l') :
    ltCount key x l ≤ ltCount key x l' := by
  apply List.Subperm.length_le
  apply List.subperm_of_subset (hnd.filter _)
  intro y hy
  rw [List.mem_filter] at hy ⊢
  exact ⟨hsub hy.1, hy.2⟩

theorem pairwise_keyLT_of_sorted_nodup (key : Nat → ℚ) {s : List Nat}
    (hs : s.Pairwise (keyOrder key)) (hnd : s.Nodup) : s.Pairwise (keyLT key) :=
  (hs.and hnd).imp fun h => keyLT_of_keyOrder_ne key h.1 h.2

theorem mem_take_of_pairwise_keyLT (key : Nat → ℚ) :
    ∀ (s : List Nat), s.Pairwise (keyLT key) → ∀ (k x : Nat),
      (x ∈ s.take k ↔ x ∈ s ∧ ltCount key x s < k) := by
  intro s
  induction s with
  | nil =>
    intro _ k x
    simp
  | cons a t ih =>
    intro hp k x
    rcases List.pairwise_cons.mp hp with ⟨ha, ht⟩
    cases k with
    | zero => simp
    | succ k =>
      rw [List.take_succ_cons]
      by_cases hxa : x = a
      · subst hxa
        have hz : ltCount key x (x :: t) = 0 := by
          rw [ltCount_cons, if_neg (keyLT_irrefl key x)]
          have : t.filter (fun j => decide (keyLT key j x)) = [] := by
            rw [List.filter_eq_nil_iff]
            intro j hj
            simpa using keyLT_asymm key (ha j hj)
          unfold ltCount
          rw [this]
          rfl
        simp [hz]
      · rw [ltCount_cons]
        constructor
        · intro hx
          have hx' : x ∈ t.take k := by
            rcases List.mem_cons.mp hx with h | h
            · exact absurd h hxa
            · exact h
          have := (ih ht k x).mp hx'
          refine ⟨List.mem_cons_of_mem a this.1, ?_⟩
          by_cases hax : keyLT key a x
          · rw [if_pos hax]
            omega
          · rw [if_neg hax]
            omega
        · rintro ⟨hx, hcount⟩
          rcases List.mem_cons.mp hx with h | h
          · exact absurd h hxa
          · have hax : keyLT key a x := ha x h
            rw [if_pos hax] at hcount
            have : x ∈ t.take k := (ih ht k x).mpr ⟨h, by omega⟩
            exact List.mem_cons_of_mem a this

theorem take_subset_take {α : Type} {m n : Nat} (h : m ≤ n) :
    ∀ (l : List α), l.take m ⊆ l.take n := by
  intro l
  induction l generalizing m n with
  | nil => simp
  | cons a t ih =>
    cases m with
    | zero => simp
    | succ m =>
      cases n with
      | zero => omega
      | succ n =>
        rw [List.take_succ_cons, List.take_succ_cons]
        intro x hx
        rcases List.mem_cons.mp hx with hx | hx
        · exact hx ▸ List.mem_cons_self x _
        · exact List.mem_cons_of_mem a (ih (Nat.le_of_succ_le_succ h) hx)

theorem length_filter_le_filter_of_mem {l : List Nat} {p q : Nat → Bool}
    (h : ∀ x ∈ l, p x = true → q x = true) :
    (l.filter p).length ≤ (l.filter q).length := by
  induction l with
  | nil => simp
  | cons a t ih =>
    have ht : ∀ x ∈ t, p x = true → q x = true :=
      fun x hx => h x (List.mem_cons_of_mem a hx)
    rw [List.filter_cons, List.filter_cons]
    by_cases hp : p a = true
    · rw [if_pos hp, if_pos (h a (List.mem_cons_self a t) hp)]
      simpa using ih ht
    · rw [if_neg hp]
      have step : (t.filter q).length
          ≤ (if q a = true then a :: t.filter q else t.filter q).length := by
        by_cases hq : q a = true
        · rw [if_pos hq, List.length_cons]
          omega
        · rw [if_neg hq]
      exact le_trans (ih ht) step

/-- Ranking of candidate ids by ascending key, ties broken by ascending
id (stable sort under the QueryResult contract). -/
def rankByKey (key : Nat → ℚ) (ids : List Nat) : List Nat :=
  ids.insertionSort (keyOrder key)

/-- First k ranked candidate ids. -/
def topkOf (key : Nat → ℚ) (k : Nat) (ids : List Nat) : List Nat :=
  (rankByKey key ids).take k

theorem mem_of_mem_topkOf (key : Nat → ℚ) (k : Nat) {ids : List Nat} {x : Nat}
    (h : x ∈ topkOf key k ids) : x ∈ ids :=
  (List.mem_insertionSort _).mp (List.take_subset _ _ h)

theorem mem_topkOf_iff (key : Nat → ℚ) {ids : List Nat} (hnd : ids.Nodup) (k x : Nat) :
    x ∈ topkOf key k ids ↔ x ∈ ids ∧ ltCount key x ids < k := by
  have hperm : rankByKey key ids ~ ids := List.perm_insertionSort _ _
  have hsorted : (rankByKey key ids).Pairwise (keyOrder key) :=
    List.sorted_insertionSort _ _
  have hnd2 : (rankByKey key ids).Nodup := hperm.nodup_iff.mpr hnd
  have hp := pairwise_keyLT_of_sorted_nodup key hsorted hnd2
  rw [topkOf, mem_take_of_pairwise_keyLT key _ hp k x, hperm.mem_iff,
    ltCount_of_perm key x hperm]

theorem mem_topkOf_of_subset (key : Nat → ℚ) {l l' : List Nat}
    (hnd : l.Nodup) (hnd' : l'.Nodup) (hsub : l ⊆ l') (k x : Nat)
    (hx : x ∈ l) (hx' : x ∈ topkOf key k l') :
    x ∈ topkOf key k l := by
  rw [mem_topkOf_iff key hnd]
  rw [mem_topkOf_iff key hnd'] at hx'
  exact ⟨hx, lt_of_le_of_lt (ltCount_le_of_subset key x hnd hsub) hx'.2⟩

/-- Squared L2 distance from a fixed query to the vector stored at each
id (out-of-range ids read as the empty vector). -/
def l2QueryKey (vecs : List (List ℚ)) (q : List ℚ) : Nat → ℚ :=
  fun i => sqL2 q (vecs.getD i [])

/-- Modelled from the spec: the coarse quantizer assigns a vector to its
nearest centroid (smallest L2 distance, ties broken by ascending centroid
id); the faiss IndexIVFFlat implementation is library code absent from
the repository sources. -/
def nearestCentroid (cents : List (List ℚ)) (v : List ℚ) : Nat :=
  (rankByKey (l2QueryKey cents v) (List.range cents.length)).headD 0

/-- Modelled from the spec: IVF search probes the nprobe centroids
nearest to the query. -/
def probedCentroids (cents : List (List ℚ)) (q : List ℚ) (nprobe : Nat) : List Nat :=
  topkOf (l2QueryKey cents q) nprobe (List.range cents.length)

/-- Modelled from the spec: the candidate set of an IVF search is the set
of stored ids whose assigned centroid is probed. -/
def ivfCandidates (cents vecs : List (List ℚ)) (q : List ℚ) (nprobe : Nat) : List Nat :=
  (List.range vecs.length).filter
    fun i => decide (nearestCentroid cents (vecs.getD i []) ∈ probedCentroids cents q nprobe)

/-- Ground truth: the exact flat search scans every stored id. -/
def flatTopK (vecs : List (List ℚ)) (q : List ℚ) (k : Nat) : List Nat :=
  topkOf (l2QueryKey vecs q) k (List.range vecs.length)

/-- Modelled from the spec: IVF search returns the top k of the scanned
candidates by true distance. -/
def ivfSearch (cents vecs : List (List ℚ)) (q : List ℚ) (k nprobe : Nat) : List Nat :=
  topkOf (l2QueryKey vecs q) k (ivfCandidates cents vecs q nprobe)


/-- Recall at k of an approximate result list against the flat ground
truth: the fraction of the true top k present in the approximate
result. -/
def recallVs (vecs : List (List ℚ)) (q : List ℚ) (k : Nat) (approx : List Nat) : ℚ :=
  (((flatTopK vecs q k).filter fun i => decide (i ∈ approx)).length : ℚ) / (k : ℚ)

/-- Recall at k of the IVF search against the flat ground truth. -/
def recallAtK (cents vecs : List (List ℚ)) (q : List ℚ) (k nprobe : Nat) : ℚ :=
  recallVs vecs q k (ivfSearch cents vecs q k nprobe)

theorem ivfCandidates_subset_range (cents vecs : List (List ℚ)) (q : List ℚ) (nprobe : Nat) :
    ivfCandidates cents vecs q nprobe ⊆ List.range vecs.length :=
  fun _ hx => List.mem_of_mem_filter hx

theorem ivfCandidates_nodup (cents vecs : List (List ℚ)) (q : List ℚ) (nprobe : Nat) :
    (ivfCandidates cents vecs q nprobe).Nodup :=
  (List.nodup_range _).filter _

theorem ivfCandidates_mono (cents vecs : List (List ℚ)) (q : List ℚ) {n1 n2 : Nat}
    (h : n1 ≤ n2) :
    ivfCandidates cents vecs q n1 ⊆ ivfCandidates cents vecs q n2 := by
  apply List.Sublist.subset
  apply List.monotone_filter_right
  intro i hi
  rw [decide_eq_true_iff] at hi ⊢
  exact take_subset_take h _ hi

theorem mem_topk_of_flat (vecs : List (List ℚ)) (q : List ℚ) (k : Nat)
    {cands : List Nat} {x : Nat} (hnd : cands.Nodup)
    (hr : cands ⊆ List.range vecs.length)
    (hflat : x ∈ flatTopK vecs q k) (hx : x ∈ cands) :
    x ∈ topkOf (l2QueryKey vecs q) k cands := by
  rw [flatTopK, mem_topkOf_iff _ (List.nodup_range _)] at hflat
  rw [mem_topkOf_iff _ hnd]
  exact ⟨hx, lt_of_le_of_lt (ltCount_le_of_subset _ x hnd hr) hflat.2⟩

/-- Core of the recall monotonicity argument: scanning a wider candidate
set can only improve recall at k, because a top-k-by-true-distance search
returns every true top-k member found among its candidates. -/
theorem recallVs_topk_mono (vecs : List (List ℚ)) (q : List ℚ) (k : Nat)
    {c1 c2 : List Nat} (hsub : c1 ⊆ c2) (hnd : c2.Nodup)
    (hr : c2 ⊆ List.range vecs.length) :
    recallVs vecs q k (topkOf (l2QueryKey vecs q) k c1)
      ≤ recallVs vecs q k (topkOf (l2QueryKey vecs q) k c2) := by
  have hnum : ((flatTopK vecs q k).filter
        fun i => decide (i ∈ topkOf (l2QueryKey vecs q) k c1)).length
      ≤ ((flatTopK vecs q k).filter
        fun i => decide (i ∈ topkOf (l2QueryKey vecs q) k c2)).length := by
    apply length_filter_le_filter_of_mem
    intro x hx hx1
    rw [decide_eq_true_iff] at hx1 ⊢
    have hc1 : x ∈ c1 := mem_of_mem_topkOf _ k hx1
    exact mem_topk_of_flat vecs q k hnd hr hx (hsub hc1)
  unfold recallVs
  rcases Nat.eq_zero_or_pos k with hk | hk
  · subst hk
    norm_num
  · have hkq : (0 : ℚ) < (k : ℚ) := by exact_mod_cast hk
    rw [div_le_div_iff_of_pos_right hkq]
    exact_mod_cast hnum

/-- Modelled from the spec: LSH hashes a vector to a bit-string by the
sign of its projection onto each of the fixed random hyperplanes; the
faiss IndexLSH implementation is library code absent from the repository
sources. -/
def lshHash (hyperplanes : List (List ℚ)) (v : List ℚ) : List Bool :=
  hyperplanes.map fun h => decide (0 ≤ dot h v)

/-- Hamming distance between two bucket keys. -/
def keyHamming (x y : List Bool) : Nat :=
  (List.zipWith (fun a b => decide (a ≠ b)) x y).count true

/-- Modelled from the spec: an LSH search with hash-neighborhood radius r
examines the stored ids hashed into buckets within Hamming distance r of
the query's bucket key. -/
def lshCandidates (hyperplanes vecs : List (List ℚ)) (q : List ℚ) (r : Nat) : List Nat :=
  (List.range vecs.length).filter fun i =>
    decide (keyHamming (lshHash hyperplanes (vecs.getD i [])) (lshHash hyperplanes q) ≤ r)

/-- Modelled from the spec: LSH re-ranks its candidates by the true
distance metric and returns the top k. -/
def lshSearch (hyperplanes vecs : List (List ℚ)) (q : List ℚ) (k r : Nat) : List Nat :=
  topkOf (l2QueryKey vecs q) k (lshCandidates hyperplanes vecs q r)

/-- Recall at k of the LSH search against the flat ground truth. -/
def lshRecallAtK (hyperplanes vecs : List (List ℚ)) (q : List ℚ) (k r : Nat) : ℚ :=
  recallVs vecs q k (lshSearch hyperplanes vecs q k r)

theorem lshCandidates_subset_range (hyperplanes vecs : List (List ℚ)) (q : List ℚ) (r : Nat) :
    lshCandidates hyperplanes vecs q r ⊆ List.range vecs.length :=
  fun _ hx => List.mem_of_mem_filter hx

theorem lshCandidates_nodup (hyperplanes vecs : List (List ℚ)) (q : List ℚ) (r : Nat) :
    (lshCandidates hyperplanes vecs q r).Nodup :=
  (List.nodup_range _).filter _

theorem lshCandidates_mono (hyperplanes vecs : List (List ℚ)) (q : List ℚ) {r1 r2 : Nat}
    (h : r1 ≤ r2) :
    lshCandidates hyperplanes vecs q r1 ⊆ lshCandidates hyperplanes vecs q r2 := by
  apply List.Sublist.subset
  apply List.monotone_filter_right
  intro i hi
  rw [decide_eq_true_iff] at hi ⊢
  exact le_trans hi h

/-- Modelled from the spec: one expansion step of the graph-traversal
frontier along the adjacency lists. -/
def hnswExpandOnce (adj : Nat → List Nat) (s : List Nat) : List Nat :=
  (s ++ s.flatMap adj).dedup

/-- Iterated frontier expansion. -/
def hnswExpandIter (adj : Nat → List Nat) : Nat → List Nat → List Nat
  | 0, s => s
  | fuel + 1, s => hnswExpandIter adj fuel (hnswExpandOnce adj s)

/-- Modelled from the spec: the stored ids the greedy traversal can reach
from the entry point along the layer-0 adjacency (n expansion steps cover
a graph of n nodes); the faiss IndexHNSWFlat implementation is library
code absent from the repository sources. -/
def hnswReachable (adj : Nat → List Nat) (entry n : Nat) : List Nat :=
  ((hnswExpandIter adj n [entry]).filter fun i => decide (i < n)).dedup

/-- Modelled from the spec: the candidate list of width efSearch
maintained by the beam search: the efSearch nearest reachable ids under
the true distance, ties broken by ascending id. -/
def hnswBeam (adj : Nat → List Nat) (entry : Nat) (vecs : List (List ℚ)) (q : List ℚ)
    (efSearch : Nat) : List Nat :=
  topkOf (l2QueryKey vecs q) efSearch (hnswReachable adj entry vecs.length)

/-- Modelled from the spec: HNSW search returns the top k found by the
beam search. -/
def hnswSearch (adj : Nat → List Nat) (entry : Nat) (vecs : List (List ℚ)) (q : List ℚ)
    (k efSearch : Nat) : List Nat :=
  topkOf (l2QueryKey vecs q) k (hnswBeam adj entry vecs q efSearch)

/-- Recall at k of the HNSW search against the flat ground truth. -/
def hnswRecallAtK (adj : Nat → List Nat) (entry : Nat) (vecs : List (List ℚ)) (q : List ℚ)
    (k efSearch : Nat) : ℚ :=
  recallVs vecs q k (hnswSearch adj entry vecs q k efSearch)

theorem hnswReachable_nodup (adj : Nat → List Nat) (entry n : Nat) :
    (hnswReachable adj entry n).Nodup :=
  List.nodup_dedup _

theorem hnswReachable_subset_range (adj : Nat → List Nat) (entry n : Nat) :
    hnswReachable adj entry n ⊆ List.range n := by
  intro x hx
  rw [hnswReachable, List.mem_dedup, List.mem_filter] at hx
  rw [List.mem_range]
  simpa using hx.2

theorem hnswBeam_nodup (adj : Nat → List Nat) (entry : Nat) (vecs : List (List ℚ))
    (q : List ℚ) (efSearch : Nat) : (hnswBeam adj entry vecs q efSearch).Nodup :=
  List.Nodup.sublist (List.take_sublist _ _)
    ((List.perm_insertionSort _ _).nodup_iff.mpr (hnswReachable_nodup adj entry vecs.length))

theorem hnswBeam_subset_range (adj : Nat → List Nat) (entry : Nat) (vecs : List (List ℚ))
    (q : List ℚ) (efSearch : Nat) :
    hnswBeam adj entry vecs q efSearch ⊆ List.range vecs.length :=
  fun _ hx => hnswReachable_subset_range adj entry vecs.length (mem_of_mem_topkOf _ _ hx)

theorem hnswBeam_mono (adj : Nat → List Nat) (entry : Nat) (vecs : List (List ℚ))
    (q : List ℚ) {e1 e2 : Nat} (h : e1 ≤ e2) :
    hnswBeam adj entry vecs q e1 ⊆ hnswBeam adj entry vecs q e2 := by
  unfold hnswBeam topkOf
  exact take_subset_take h _

/-- C6: for a fixed trained index, corpus and query, recall at k against
the exact flat ground truth is monotonically non-decreasing in the
breadth parameter, all other parameters held fixed: in nprobe for IVF, in
the hash-neighborhood radius for LSH, and in efSearch for HNSW. -/
theorem recall_monotone_in_breadth :
    (∀ (cents vecs : List (List ℚ)) (q : List ℚ) (k n1 n2 : Nat), n1 ≤ n2 →
      recallAtK cents vecs q k n1 ≤ recallAtK cents vecs q k n2)
    ∧ (∀ (hyperplanes vecs : List (List ℚ)) (q : List ℚ) (k r1 r2 : Nat), r1 ≤ r2 →
      lshRecallAtK hyperplanes vecs q k r1 ≤ lshRecallAtK hyperplanes vecs q k r2)
    ∧ (∀ (adj : Nat → List Nat) (entry : Nat) (vecs : List (List ℚ)) (q : List ℚ)
        (k e1 e2 : Nat), e1 ≤ e2 →
      hnswRecallAtK adj entry vecs q k e1 ≤ hnswRecallAtK adj entry vecs q k e2) := by
  refine ⟨?_, ?_, ?_⟩
  · intro cents vecs q k n1 n2 h
    unfold recallAtK ivfSearch
    exact recallVs_topk_mono vecs q k (ivfCandidates_mono cents vecs q h)
      (ivfCandidates_nodup cents vecs q n2) (ivfCandidates_subset_range cents vecs q n2)
  · intro hyperplanes vecs q k r1 r2 h
    unfold lshRecallAtK lshSearch
    exact recallVs_topk_mono vecs q k (lshCandidates_mono hyperplanes vecs q h)
      (lshCandidates_nodup hyperplanes vecs q r2)
      (lshCandidates_subset_range hyperplanes vecs q r2)
  · intro adj entry vecs q k e1 e2 h
    unfold hnswRecallAtK hnswSearch
    exact recallVs_topk_mono vecs q k (hnswBeam_mono adj entry vecs q h)
      (hnswBeam_nodup adj entry vecs q e2) (hnswBeam_subset_range adj entry vecs q e2)

/-- Witness for C6 at concrete inputs: IVF with nprobe widening from 1 to
2, LSH with the hash-neighborhood radius widening from 0 to 1, and HNSW
with efSearch widening from 1 to 2. -/
theorem recall_monotone_in_breadth_witness :
    (1 ≤ 2 ∧ recallAtK [[0], [10]] [[1], [9]] [2] 1 1 ≤ recallAtK [[0], [10]] [[1], [9]] [2] 1 2)
    ∧ (0 ≤ 1 ∧ lshRecallAtK [[1]] [[1], [9]] [2] 1 0 ≤ lshRecallAtK [[1]] [[1], [9]] [2] 1 1)
    ∧ (1 ≤ 2 ∧ hnswRecallAtK (fun _ => [0, 1]) 0 [[1], [9]] [2] 1 1
        ≤ hnswRecallAtK (fun _ => [0, 1]) 0 [[1], [9]] [2] 1 2) :=
  ⟨⟨by decide, recall_monotone_in_breadth.1 [[0], [10]] [[1], [9]] [2] 1 1 2 (by decide)⟩,
    ⟨by decide, recall_monotone_in_breadth.2.1 [[1]] [[1], [9]] [2] 1 0 1 (by decide)⟩,
    ⟨by decide, recall_monotone_in_breadth.2.2 (fun _ => [0, 1]) 0 [[1], [9]] [2] 1 1 2
      (by decide)⟩⟩
